import Mathlib

/-!
HashSet.hpp: a separately-chained hash table.

Shallow embedding of `core/HashSet.hpp` (ICS 46 project 3, "A Spell Checker").

Modelling conventions.

* A chain (`Node*`, a null-terminated singly linked list) is a `List α` read from
  the head; `nullptr` is `[]`.
* The bucket array `Node** hash` is a `List (List α)`; reading `hash[i]` is
  `chainAt`, writing `hash[i] = p` is `List.set`.
* `hCapacity` and `hSize` are C++ `int`s and are kept as separate fields, as in
  the source.  They are modelled by `Nat`.  `Nat` arithmetic agrees with `int`
  arithmetic as long as `2 * hCapacity < 2 ^ 31`; beyond that point the source
  itself has no defined behaviour (signed overflow in `hCapacity*2`), and the
  model does not describe it.
* `HashFunction` returns `unsigned int`; it is modelled as `α → Nat`, which
  covers every function with values below `2 ^ 32`.
* `walker->element == element` is the equality of the element type, modelled by
  `DecidableEq α`.
* The test `(double)hSize/(double)hCapacity < 0.8` is modelled exactly by
  `5 * hSize < 4 * hCapacity`.  Under IEEE 754 binary64 evaluation both
  conversions to `double` are exact, the division is correctly rounded and
  monotone, the literal `0.8` is the double nearest to `4/5`, and for `int`
  operands a quotient below `4/5` is below it by at least
  `1 / (5 * hCapacity) > 2 ^ (-34)`, far more than the spacing `2 ^ (-53)` of
  doubles near `0.8`; so the rounded quotient is below the rounded `0.8` exactly
  when `hSize / hCapacity < 4/5` in the rationals.  With `hCapacity = 0` the
  quotient is NaN or infinite and the comparison is false, as is
  `5 * hSize < 0`.
-/

namespace SpellChecker

/-- The record of private members of `HashSet<ElementType>`. -/
structure HashSet (α : Type) where
  hashFunction : α → Nat
  hash : List (List α)
  hCapacity : Nat
  hSize : Nat

namespace HashSet

variable {α : Type}

/-- The constant `DEFAULT_CAPACITY`. -/
def DEFAULT_CAPACITY : Nat := 10

/-- The read `hash[index]`: the chain whose head pointer is stored at `index`. -/
def chainAt (s : HashSet α) (index : Nat) : List α :=
  s.hash.getD index []

/-- The constructor `HashSet(HashFunction hashFunction)`. -/
def create (hashFunction : α → Nat) : HashSet α :=
  { hashFunction := hashFunction
    hash := List.replicate DEFAULT_CAPACITY []
    hCapacity := DEFAULT_CAPACITY
    hSize := 0 }

/-- The loop `while(walker != nullptr){ numElement++; walker = walker->next; }`
of `elementsAtIndex`, returning the final value of `numElement`. -/
def countLoop : List α → Nat → Nat
  | [], numElement => numElement
  | _ :: next, numElement => countLoop next (numElement + 1)

/-- The expression `numElement++`: its value is the old `numElement`, and the
variable holds `numElement + 1` afterwards. -/
def postIncrement (numElement : Nat) : Nat × Nat :=
  (numElement, numElement + 1)

/-- The member function `elementsAtIndex`. -/
def elementsAtIndex (s : HashSet α) (index : Nat) : Nat :=
  if index ≥ s.hCapacity then 0
  else (postIncrement (countLoop (s.chainAt index) 0)).1

/-- The search loop shared by `contains` and `isElementAtIndex`:
`while(walker != nullptr){ if(walker->element == element) return true; walker = walker->next; }`
followed by `return isFound` with `isFound` still false. -/
def searchLoop [DecidableEq α] : List α → α → Bool
  | [], _ => false
  | x :: next, element => if x = element then true else searchLoop next element

/-- The member function `contains`. -/
def contains [DecidableEq α] (s : HashSet α) (element : α) : Bool :=
  searchLoop (s.chainAt (s.hashFunction element % s.hCapacity)) element

/-- The member function `size`. -/
def size (s : HashSet α) : Nat :=
  s.hSize

/-- The loop `while(walker->next != nullptr) walker = walker->next;` followed by
`walker->next = new Node{element}`, as the chain that results.  The source only
runs it on a non-null `walker`: `linkNode` calls it when `elementsAtIndex` is
not 0, so the first equation is never reached from `linkNode`. -/
def linkLast : List α → α → List α
  | [], element => [element]
  | [x], element => [x, element]
  | x :: y :: next, element => x :: linkLast (y :: next) element

/-- The block that occurs three times in `add` (for `element` in both branches
and for `walker->element` in the rehash loop):
`if(elementsAtIndex(i) == 0) hash[i] = new Node{x}; else { walk to the last node; link new Node{x} }`
with `i = hashFunction(x) % hCapacity`. -/
def linkNode (s : HashSet α) (x : α) : HashSet α :=
  let i := s.hashFunction x % s.hCapacity
  if s.elementsAtIndex i = 0 then
    { s with hash := s.hash.set i [x] }
  else
    { s with hash := s.hash.set i (linkLast (s.chainAt i) x) }

/-- The inner loop of the rehash, `while(walker != nullptr){ link walker->element; walker = walker->next; }`. -/
def rehashChain (s : HashSet α) : List α → HashSet α
  | [] => s
  | x :: next => rehashChain (s.linkNode x) next

/-- The outer loop of the rehash, `for(int i = 0; i < oldCapacity; i++)` over
`oldHash[i]`. -/
def rehashLoop (oldHash : List (List α)) (oldCapacity : Nat) (s : HashSet α) : HashSet α :=
  (List.range oldCapacity).foldl (fun t i => rehashChain t (oldHash.getD i [])) s

/-- The growth branch of `add` up to and including the rehash loop: double
`hCapacity`, allocate the new array of null heads, and re-link every element of
the old array. -/
def grow (s : HashSet α) : HashSet α :=
  let oldCapacity := s.hCapacity
  let oldHash := s.hash
  rehashLoop oldHash oldCapacity
    { s with hCapacity := s.hCapacity * 2
             hash := List.replicate (s.hCapacity * 2) [] }

/-- The test `(double)hSize/(double)hCapacity < 0.8` of `add`. -/
def belowLoadFactor (s : HashSet α) : Bool :=
  decide (5 * s.hSize < 4 * s.hCapacity)

/-- The member function `add`. -/
def add [DecidableEq α] (s : HashSet α) (element : α) : HashSet α :=
  if !s.contains element then
    if s.belowLoadFactor then
      let t := s.linkNode element
      { t with hSize := t.hSize + 1 }
    else
      let t := s.grow.linkNode element
      { t with hSize := t.hSize + 1 }
  else s

/-- The set obtained from `s` by calling `add` on the elements of `xs` in order. -/
def addAll [DecidableEq α] (s : HashSet α) (xs : List α) : HashSet α :=
  xs.foldl add s

/-- States reachable from a freshly constructed set by calls of `add`. -/
inductive Reachable [DecidableEq α] : HashSet α → Prop
  | create (hashFunction : α → Nat) : Reachable (create hashFunction)
  | add {s : HashSet α} (element : α) : Reachable s → Reachable (s.add element)

/-- States reachable by calls of `add` from the set that the constructor builds
for the hash function `h`. -/
inductive ReachableFrom [DecidableEq α] (h : α → Nat) : HashSet α → Prop
  | create : ReachableFrom h (create h)
  | add {s : HashSet α} (element : α) : ReachableFrom h s → ReachableFrom h (s.add element)

/-- The elements stored in the table: the chains of all buckets, bucket 0 first. -/
def elems (s : HashSet α) : List α :=
  s.hash.flatten

/-- The bucket array has `hCapacity` cells and `hCapacity` is positive. -/
def WF (s : HashSet α) : Prop :=
  s.hash.length = s.hCapacity ∧ 0 < s.hCapacity

/-- Every stored element sits in the bucket that its hash selects. -/
def Home (s : HashSet α) : Prop :=
  ∀ j x, x ∈ s.chainAt j → s.hashFunction x % s.hCapacity = j

/-- The invariant of reachable tables. -/
structure Inv (s : HashSet α) : Prop where
  wf : s.WF
  home : s.Home
  nodup : s.elems.Nodup
  size_eq : s.hSize = s.elems.length
  load : 5 * s.hSize ≤ 4 * s.hCapacity
  doubling : ∃ k, s.hCapacity = DEFAULT_CAPACITY * 2 ^ k
  tight : s.hCapacity = DEFAULT_CAPACITY ∨ 2 * s.hCapacity < 5 * s.hSize

/-- A hash function on numbers with values below `2 ^ 32`, used in the worked
instances; it sends `2 * k` and `2 * k + 1` to the same value, so chains of two
nodes occur. -/
def sampleHash (n : Nat) : Nat :=
  n / 2 % 4294967296

/-- The table after adding `0, 1, ..., 7` to a fresh set: size 8, capacity 10,
chains `[0, 1]`, `[2, 3]`, `[4, 5]`, `[6, 7]` in buckets 0 to 3. -/
def sampleEight : HashSet Nat :=
  addAll (create sampleHash) [0, 1, 2, 3, 4, 5, 6, 7]

/-- The member function `isElementAtIndex`. -/
def isElementAtIndex [DecidableEq α] (s : HashSet α) (element : α) (index : Nat) : Bool :=
  if index ≥ s.hCapacity then false
  else searchLoop (s.chainAt index) element

/-- The function `impl_::HashSet__undefinedHashFunction`, which returns 0 for
every element. -/
def impl_.HashSet__undefinedHashFunction (_element : α) : Nat :=
  0

/-- The loop `while(walker->next != nullptr){ walker = walker->next;
copy->next = new Node{walker->element}; copy = copy->next; }` of the copy
constructor and of copy assignment.  The first argument is the chain
`walker->next`.  The state is the chain of nodes built so far, read from the
first node built, together with the position in it of the node that `copy`
points to; `copy->next = n` replaces what follows that node by `n`. -/
def copyLoop : List α → List α × Nat → List α × Nat
  | [], st => st
  | y :: next, (built, pos) => copyLoop next (built.take (pos + 1) ++ [y], pos + 1)

/-- The body of the `for` loop of the copy constructor and of copy assignment
for one bucket, as the chain that ends up in `hash[i]`: a null source head
gives `nullptr`; otherwise a first node is built, the loop runs, and
`hash[i] = copy` stores the pointer `copy`, that is the built chain from the
node `copy` points to. -/
def copyBucket : List α → List α
  | [] => []
  | x :: next =>
    let st := copyLoop next ([x], 0)
    st.1.drop st.2

/-- The copy constructor `HashSet(const HashSet& s)`. -/
def copyConstruct (s : HashSet α) : HashSet α :=
  { hashFunction := impl_.HashSet__undefinedHashFunction
    hCapacity := s.hCapacity
    hash := (List.range s.hCapacity).map (fun i => copyBucket (s.chainAt i))
    hSize := s.hSize }

/-- The copy assignment `operator=(const HashSet& s)`, as the new state of
`*this`.  `sameObject` is the outcome of the test `this == &s`; the member
`hashFunction` of `*this` is not assigned. -/
def copyAssign (self s : HashSet α) (sameObject : Bool) : HashSet α :=
  if sameObject then self
  else
    { self with
      hCapacity := s.hCapacity
      hash := (List.range s.hCapacity).map (fun i => copyBucket (s.chainAt i))
      hSize := s.hSize }

/-- The move constructor `HashSet(HashSet&& s)`: the new object and the state
in which `s` is left.  The null array pointer is the empty list. -/
def moveConstruct (s : HashSet α) : HashSet α × HashSet α :=
  ({ hashFunction := impl_.HashSet__undefinedHashFunction
     hash := s.hash
     hCapacity := s.hCapacity
     hSize := s.hSize },
   { s with hash := [], hCapacity := 0, hSize := 0 })

/-- The move assignment `operator=(HashSet&& s)` between two distinct objects:
the new state of `*this` and the state in which `s` is left.  The member
`hashFunction` of `*this` is not assigned. -/
def moveAssign (self s : HashSet α) : HashSet α × HashSet α :=
  ({ self with hash := s.hash, hCapacity := s.hCapacity, hSize := s.hSize },
   { s with hash := [], hCapacity := 0, hSize := 0 })

/-- The table after adding `0` and `1` to a fresh set: both sit in bucket 0,
whose chain is `[0, 1]`. -/
def sampleTwo : HashSet Nat :=
  addAll (create sampleHash) [0, 1]

/-- The table after adding `2` and `5` to a fresh set: `2` sits alone in
bucket 1 and `5` alone in bucket 2. -/
def sampleApart : HashSet Nat :=
  addAll (create sampleHash) [2, 5]

/-- The table after adding `0, 20, 1, 21, 2, 22, 3, 23` to a fresh set: size 8,
capacity 10.  The hash values are `0, 10, 0, 10, 1, 11, 1, 11`, so bucket 0
holds `[0, 20, 1, 21]` and bucket 1 holds `[2, 22, 3, 23]`. -/
def sampleWrapped : HashSet Nat :=
  addAll (create sampleHash) [0, 20, 1, 21, 2, 22, 3, 23]

/-! ## Loops as list functions -/

theorem countLoop_eq (l : List α) (n : Nat) : countLoop l n = n + l.length := by
  induction l generalizing n with
  | nil => simp [countLoop]
  | cons x next ih => simp [countLoop, ih]; omega

theorem searchLoop_iff [DecidableEq α] (l : List α) (e : α) :
    searchLoop l e = true ↔ e ∈ l := by
  induction l with
  | nil => simp [searchLoop]
  | cons x next ih =>
    by_cases hx : x = e
    · simp [searchLoop, hx]
    · have hne : ¬ e = x := fun h => hx h.symm
      simp [searchLoop, hx, hne, ih]

theorem linkLast_eq (l : List α) (e : α) : linkLast l e = l ++ [e] := by
  induction l with
  | nil => rfl
  | cons x next ih =>
    cases next with
    | nil => rfl
    | cons y rest => simp [linkLast, ih]

theorem elementsAtIndex_eq (s : HashSet α) (index : Nat) :
    s.elementsAtIndex index = if index < s.hCapacity then (s.chainAt index).length else 0 := by
  unfold elementsAtIndex postIncrement
  by_cases h : index < s.hCapacity
  · have h2 : ¬ index ≥ s.hCapacity := by omega
    simp [h, h2, countLoop_eq]
  · have h2 : index ≥ s.hCapacity := by omega
    simp [h, h2]

/-! ## Well-formed tables and the linking step -/

theorem linkNode_eq (s : HashSet α) (x : α) (hpos : 0 < s.hCapacity) :
    s.linkNode x =
      { s with hash := s.hash.set (s.hashFunction x % s.hCapacity)
                  (s.chainAt (s.hashFunction x % s.hCapacity) ++ [x]) } := by
  have hlt : s.hashFunction x % s.hCapacity < s.hCapacity := Nat.mod_lt _ hpos
  unfold linkNode
  simp only [elementsAtIndex_eq, hlt, if_true, linkLast_eq]
  split
  · next h0 =>
    have : s.chainAt (s.hashFunction x % s.hCapacity) = [] := List.length_eq_zero.mp h0
    simp [this]
  · rfl

@[simp] theorem linkNode_hCapacity (s : HashSet α) (x : α) :
    (s.linkNode x).hCapacity = s.hCapacity := by
  simp only [linkNode]; split <;> rfl

@[simp] theorem linkNode_hSize (s : HashSet α) (x : α) :
    (s.linkNode x).hSize = s.hSize := by
  simp only [linkNode]; split <;> rfl

@[simp] theorem linkNode_hashFunction (s : HashSet α) (x : α) :
    (s.linkNode x).hashFunction = s.hashFunction := by
  simp only [linkNode]; split <;> rfl

@[simp] theorem linkNode_hash_length (s : HashSet α) (x : α) :
    (s.linkNode x).hash.length = s.hash.length := by
  simp only [linkNode]; split <;> simp

theorem linkNode_WF {s : HashSet α} (x : α) (h : s.WF) : (s.linkNode x).WF := by
  unfold WF at *; simp; exact h

theorem chainAt_linkNode {s : HashSet α} (x : α) (h : s.WF) (j : Nat) :
    (s.linkNode x).chainAt j =
      if s.hashFunction x % s.hCapacity = j then s.chainAt j ++ [x] else s.chainAt j := by
  obtain ⟨hlen, hpos⟩ := h
  have hlt : s.hashFunction x % s.hCapacity < s.hash.length := by
    rw [hlen]; exact Nat.mod_lt _ hpos
  rw [linkNode_eq s x hpos]
  unfold chainAt
  simp only [List.getD_eq_getElem?_getD, List.getElem?_set]
  split
  · next heq => subst heq; simp [hlt]
  · rfl

theorem flatten_set_append_perm (l : List (List α)) (i : Nat) (x : α) (hi : i < l.length) :
    (l.set i (l.getD i [] ++ [x])).flatten.Perm (x :: l.flatten) := by
  induction l generalizing i with
  | nil => simp at hi
  | cons c cs ih =>
    cases i with
    | zero =>
      simp only [List.set_cons_zero, List.getD_cons_zero, List.flatten_cons, List.append_assoc]
      have : (c ++ ([x] ++ cs.flatten)).Perm ([x] ++ (c ++ cs.flatten)) := by
        rw [← List.append_assoc, ← List.append_assoc]
        exact List.Perm.append_right _ List.perm_append_comm
      exact this
    | succ k =>
      have hk : k < cs.length := by simpa using hi
      simp only [List.set_cons_succ, List.getD_cons_succ, List.flatten_cons]
      have := (ih k hk).append_left c
      exact this.trans (List.perm_middle)

theorem elems_linkNode {s : HashSet α} (x : α) (h : s.WF) :
    (s.linkNode x).elems.Perm (x :: s.elems) := by
  obtain ⟨hlen, hpos⟩ := h
  rw [linkNode_eq s x hpos]
  unfold elems chainAt
  apply flatten_set_append_perm
  rw [hlen]; exact Nat.mod_lt _ hpos

/-! ## The rehash loops -/

@[simp] theorem rehashChain_hCapacity (s : HashSet α) (ys : List α) :
    (s.rehashChain ys).hCapacity = s.hCapacity := by
  induction ys generalizing s with
  | nil => rfl
  | cons y ys ih => simp [rehashChain, ih]

@[simp] theorem rehashChain_hSize (s : HashSet α) (ys : List α) :
    (s.rehashChain ys).hSize = s.hSize := by
  induction ys generalizing s with
  | nil => rfl
  | cons y ys ih => simp [rehashChain, ih]

@[simp] theorem rehashChain_hashFunction (s : HashSet α) (ys : List α) :
    (s.rehashChain ys).hashFunction = s.hashFunction := by
  induction ys generalizing s with
  | nil => rfl
  | cons y ys ih => simp [rehashChain, ih]

theorem rehashChain_WF {s : HashSet α} (ys : List α) (h : s.WF) : (s.rehashChain ys).WF := by
  induction ys generalizing s with
  | nil => exact h
  | cons y ys ih => exact ih (linkNode_WF y h)

theorem rehashChain_append (s : HashSet α) (ys zs : List α) :
    s.rehashChain (ys ++ zs) = (s.rehashChain ys).rehashChain zs := by
  induction ys generalizing s with
  | nil => rfl
  | cons y ys ih => simp [rehashChain, ih]

theorem chainAt_rehashChain {s : HashSet α} (ys : List α) (h : s.WF) (j : Nat) :
    (s.rehashChain ys).chainAt j =
      s.chainAt j ++ ys.filter (fun y => s.hashFunction y % s.hCapacity = j) := by
  induction ys generalizing s with
  | nil => simp [rehashChain]
  | cons y ys ih =>
    simp only [rehashChain]
    rw [ih (linkNode_WF y h), chainAt_linkNode y h]
    by_cases hj : s.hashFunction y % s.hCapacity = j
    · simp [hj, List.filter_cons]
    · simp [hj, List.filter_cons]

theorem elems_rehashChain {s : HashSet α} (ys : List α) (h : s.WF) :
    (s.rehashChain ys).elems.Perm (ys ++ s.elems) := by
  induction ys generalizing s with
  | nil => simp [rehashChain]
  | cons y ys ih =>
    simp only [rehashChain]
    refine (ih (linkNode_WF y h)).trans ?_
    refine (List.Perm.append_left ys (elems_linkNode y h)).trans ?_
    exact List.perm_middle

theorem rehashLoop_eq (oldHash : List (List α)) (n : Nat) (s : HashSet α) :
    rehashLoop oldHash n s =
      s.rehashChain ((List.range n).map (fun i => oldHash.getD i [])).flatten := by
  unfold rehashLoop
  generalize List.range n = is
  induction is generalizing s with
  | nil => rfl
  | cons i is ih =>
    rw [List.foldl_cons, ih, List.map_cons, List.flatten_cons, rehashChain_append]

theorem map_range_getD (l : List (List α)) :
    (List.range l.length).map (fun i => l.getD i []) = l := by
  apply List.ext_getElem
  · simp
  · intro i h1 h2
    simp [List.getD_eq_getElem?_getD, List.getElem?_eq_getElem h2]

theorem grow_eq {s : HashSet α} (h : s.WF) :
    s.grow =
      rehashChain { s with hCapacity := s.hCapacity * 2
                           hash := List.replicate (s.hCapacity * 2) [] } s.elems := by
  unfold grow elems
  rw [rehashLoop_eq]
  have := map_range_getD s.hash
  rw [h.1] at this
  rw [this]

theorem grow_hCapacity {s : HashSet α} (h : s.WF) : s.grow.hCapacity = s.hCapacity * 2 := by
  rw [grow_eq h]; simp

theorem grow_hSize {s : HashSet α} (h : s.WF) : s.grow.hSize = s.hSize := by
  rw [grow_eq h]; simp

theorem grow_hashFunction {s : HashSet α} (h : s.WF) : s.grow.hashFunction = s.hashFunction := by
  rw [grow_eq h]; simp

theorem emptied_WF {s : HashSet α} (h : s.WF) :
    WF { s with hCapacity := s.hCapacity * 2, hash := List.replicate (s.hCapacity * 2) [] } := by
  obtain ⟨_, hpos⟩ := h
  constructor
  · simp
  · show 0 < s.hCapacity * 2
    omega

theorem grow_WF {s : HashSet α} (h : s.WF) : s.grow.WF := by
  rw [grow_eq h]
  exact rehashChain_WF _ (emptied_WF h)

theorem chainAt_grow {s : HashSet α} (h : s.WF) (j : Nat) :
    s.grow.chainAt j =
      s.elems.filter (fun y => s.hashFunction y % (s.hCapacity * 2) = j) := by
  rw [grow_eq h, chainAt_rehashChain _ (emptied_WF h)]
  have hnil : chainAt { s with hCapacity := s.hCapacity * 2,
                                hash := List.replicate (s.hCapacity * 2) [] } j = [] := by
    simp only [chainAt, List.getD_eq_getElem?_getD, List.getElem?_replicate]
    split <;> rfl
  rw [hnil]; rfl

theorem elems_grow {s : HashSet α} (h : s.WF) : s.grow.elems.Perm s.elems := by
  rw [grow_eq h]
  refine (elems_rehashChain _ (emptied_WF h)).trans ?_
  simp [elems]

/-! ## Membership and the home bucket -/

theorem mem_elems_iff (s : HashSet α) (x : α) : x ∈ s.elems ↔ ∃ j, x ∈ s.chainAt j := by
  unfold elems chainAt
  rw [List.mem_flatten]
  constructor
  · rintro ⟨l, hl, hx⟩
    obtain ⟨j, hj, rfl⟩ := List.getElem_of_mem hl
    exact ⟨j, by simpa [List.getD_eq_getElem?_getD, List.getElem?_eq_getElem hj] using hx⟩
  · rintro ⟨j, hx⟩
    by_cases hj : j < s.hash.length
    · refine ⟨s.hash[j], List.getElem_mem hj, ?_⟩
      simpa [List.getD_eq_getElem?_getD, List.getElem?_eq_getElem hj] using hx
    · have : s.hash[j]? = none := List.getElem?_eq_none (by omega)
      simp [List.getD_eq_getElem?_getD, this] at hx

theorem contains_iff [DecidableEq α] {s : HashSet α} (hh : s.Home) (e : α) :
    s.contains e = true ↔ e ∈ s.elems := by
  unfold contains
  rw [searchLoop_iff, mem_elems_iff]
  constructor
  · intro h; exact ⟨_, h⟩
  · rintro ⟨j, hj⟩
    rw [hh j e hj]; exact hj

theorem contains_eq_false_iff [DecidableEq α] {s : HashSet α} (hh : s.Home) (e : α) :
    s.contains e = false ↔ e ∉ s.elems := by
  rw [← contains_iff hh, Bool.not_eq_true]

theorem linkNode_Home {s : HashSet α} (x : α) (h : s.WF) (hh : s.Home) :
    (s.linkNode x).Home := by
  intro j y hy
  rw [chainAt_linkNode x h] at hy
  rw [linkNode_hashFunction, linkNode_hCapacity]
  split at hy
  · next heq =>
    rcases List.mem_append.mp hy with h1 | h1
    · exact hh j y h1
    · rw [List.mem_singleton.mp h1]; exact heq
  · exact hh j y hy

theorem grow_Home {s : HashSet α} (h : s.WF) : s.grow.Home := by
  intro j y hy
  rw [chainAt_grow h] at hy
  rw [grow_hashFunction h, grow_hCapacity h]
  simpa using (List.mem_filter.mp hy).2

/-! ## The three paths through `add` -/

theorem add_of_contains [DecidableEq α] (s : HashSet α) (e : α) (h : s.contains e = true) :
    s.add e = s := by
  simp [add, h]

theorem add_below [DecidableEq α] (s : HashSet α) (e : α) (h : s.contains e = false)
    (hb : 5 * s.hSize < 4 * s.hCapacity) :
    s.add e = { s.linkNode e with hSize := s.hSize + 1 } := by
  simp [add, h, belowLoadFactor, hb]

theorem add_grow [DecidableEq α] (s : HashSet α) (e : α) (h : s.contains e = false)
    (hb : ¬ 5 * s.hSize < 4 * s.hCapacity) (hwf : s.WF) :
    s.add e = { s.grow.linkNode e with hSize := s.hSize + 1 } := by
  simp [add, h, belowLoadFactor, hb, grow_hSize hwf]

theorem create_Inv (hf : α → Nat) : (create hf).Inv where
  wf := ⟨by simp [create], by simp [create, DEFAULT_CAPACITY]⟩
  home := by
    intro j x hx
    simp only [chainAt, create, List.getD_eq_getElem?_getD, List.getElem?_replicate] at hx
    split at hx <;> simp at hx
  nodup := by simp [elems, create]
  size_eq := by simp [elems, create]
  load := by simp [create]
  doubling := ⟨0, by simp [create]⟩
  tight := Or.inl rfl

/-- Setting `hSize` does not touch the array, the capacity or the hash function. -/
theorem Inv_of_linked {t : HashSet α} {n : Nat} (hwf : t.WF) (hh : t.Home)
    (hnd : t.elems.Nodup) (hn : n = t.elems.length) (hl : 5 * n ≤ 4 * t.hCapacity)
    (hd : ∃ k, t.hCapacity = DEFAULT_CAPACITY * 2 ^ k)
    (ht : t.hCapacity = DEFAULT_CAPACITY ∨ 2 * t.hCapacity < 5 * n) :
    Inv { t with hSize := n } :=
  ⟨hwf, hh, hnd, hn, hl, hd, ht⟩

theorem add_Inv [DecidableEq α] {s : HashSet α} (e : α) (h : s.Inv) : (s.add e).Inv := by
  cases hc : s.contains e with
  | true => rw [add_of_contains s e hc]; exact h
  | false =>
    have hnot : e ∉ s.elems := (contains_eq_false_iff h.home e).mp hc
    obtain ⟨k, hk⟩ := h.doubling
    have hload := h.load
    have htight := h.tight
    have hsz := h.size_eq
    unfold DEFAULT_CAPACITY at hk htight
    by_cases hb : 5 * s.hSize < 4 * s.hCapacity
    · rw [add_below s e hc hb]
      have hp := elems_linkNode e h.wf
      refine Inv_of_linked (linkNode_WF e h.wf) (linkNode_Home e h.wf h.home) ?_ ?_ ?_ ?_ ?_
      · exact hp.nodup_iff.mpr (List.nodup_cons.mpr ⟨hnot, h.nodup⟩)
      · rw [hp.length_eq, List.length_cons, hsz]
      · rw [linkNode_hCapacity]; omega
      · rw [linkNode_hCapacity]; exact ⟨k, hk⟩
      · rw [linkNode_hCapacity]; unfold DEFAULT_CAPACITY; omega
    · rw [add_grow s e hc hb h.wf]
      have hg := grow_WF h.wf
      have hp := (elems_linkNode e hg).trans (List.Perm.cons e (elems_grow h.wf))
      have hpos := h.wf.2
      refine Inv_of_linked (linkNode_WF e hg) (linkNode_Home e hg (grow_Home h.wf)) ?_ ?_ ?_ ?_ ?_
      · exact hp.nodup_iff.mpr (List.nodup_cons.mpr ⟨hnot, h.nodup⟩)
      · rw [hp.length_eq, List.length_cons, hsz]
      · rw [linkNode_hCapacity, grow_hCapacity h.wf]; omega
      · rw [linkNode_hCapacity, grow_hCapacity h.wf]
        exact ⟨k + 1, by rw [hk, pow_succ]; unfold DEFAULT_CAPACITY; ring⟩
      · rw [linkNode_hCapacity, grow_hCapacity h.wf]; right; omega

theorem Reachable.inv [DecidableEq α] {s : HashSet α} (h : Reachable s) : s.Inv := by
  induction h with
  | create hf => exact create_Inv hf
  | add e _ ih => exact add_Inv e ih

/-- What `add` does to the stored elements. -/
theorem elems_add [DecidableEq α] {s : HashSet α} (e : α) (h : s.Inv) :
    (s.add e).elems.Perm (if e ∈ s.elems then s.elems else e :: s.elems) := by
  cases hc : s.contains e with
  | true =>
    rw [add_of_contains s e hc, if_pos ((contains_iff h.home e).mp hc)]
  | false =>
    rw [if_neg ((contains_eq_false_iff h.home e).mp hc)]
    by_cases hb : 5 * s.hSize < 4 * s.hCapacity
    · rw [add_below s e hc hb]
      exact elems_linkNode e h.wf
    · rw [add_grow s e hc hb h.wf]
      exact (elems_linkNode e (grow_WF h.wf)).trans (List.Perm.cons e (elems_grow h.wf))

theorem mem_elems_add [DecidableEq α] {s : HashSet α} (e x : α) (h : s.Inv) :
    x ∈ (s.add e).elems ↔ x = e ∨ x ∈ s.elems := by
  rw [(elems_add e h).mem_iff]
  split
  · next hm =>
    constructor
    · exact Or.inr
    · rintro (rfl | hx)
      · exact hm
      · exact hx
  · exact List.mem_cons

theorem addAll_reachable [DecidableEq α] {s : HashSet α} (xs : List α) (h : Reachable s) :
    Reachable (s.addAll xs) := by
  induction xs generalizing s with
  | nil => exact h
  | cons x xs ih => exact ih (Reachable.add x h)

theorem mem_elems_addAll [DecidableEq α] {s : HashSet α} (xs : List α) (x : α) (h : s.Inv) :
    x ∈ (s.addAll xs).elems ↔ x ∈ s.elems ∨ x ∈ xs := by
  induction xs generalizing s with
  | nil => simp [addAll]
  | cons y ys ih =>
    show x ∈ ((s.add y).addAll ys).elems ↔ _
    rw [ih (add_Inv y h), mem_elems_add y x h, List.mem_cons]
    tauto

/-! ## Arithmetic of the load factor -/

theorem ratio_gt_iff (n c : Nat) (hc : 0 < c) :
    ((4 : ℚ) / 5 < ((n : ℚ) + 1) / (c : ℚ)) ↔ 4 * c < 5 * (n + 1) := by
  have hc2 : (0 : ℚ) < (c : ℚ) := by exact_mod_cast hc
  rw [lt_div_iff₀ hc2]
  constructor
  · intro h
    have h2 : ((4 * c : Nat) : ℚ) < ((5 * (n + 1) : Nat) : ℚ) := by push_cast; linarith
    exact_mod_cast h2
  · intro h
    have h2 : ((4 * c : Nat) : ℚ) < ((5 * (n + 1) : Nat) : ℚ) := by exact_mod_cast h
    push_cast at h2
    linarith

theorem le_floor_load_iff (n c : Nat) :
    n ≤ ⌊(4 : ℚ) / 5 * (c : ℚ)⌋₊ ↔ 5 * n ≤ 4 * c := by
  rw [Nat.le_floor_iff (by positivity)]
  constructor
  · intro h
    have h2 : ((5 * n : Nat) : ℚ) ≤ ((4 * c : Nat) : ℚ) := by push_cast; linarith
    exact_mod_cast h2
  · intro h
    have h2 : ((5 * n : Nat) : ℚ) ≤ ((4 * c : Nat) : ℚ) := by exact_mod_cast h
    push_cast at h2
    linarith

theorem sum_elementsAtIndex {s : HashSet α} (h : s.WF) :
    ((List.range s.hCapacity).map s.elementsAtIndex).sum = s.elems.length := by
  have h1 : (List.range s.hCapacity).map s.elementsAtIndex =
      ((List.range s.hCapacity).map (fun i => s.hash.getD i [])).map List.length := by
    rw [List.map_map]
    apply List.map_congr_left
    intro i hi
    have hi2 : i < s.hCapacity := List.mem_range.mp hi
    simp [elementsAtIndex_eq, hi2, chainAt]
  have h2 := map_range_getD s.hash
  rw [h.1] at h2
  rw [h1, h2, elems, List.length_flatten]

/-- Capacity and growth on a new element, in terms of the integer test. -/
theorem add_hCapacity_new [DecidableEq α] {s : HashSet α} (e : α) (h : s.Inv)
    (hc : s.contains e = false) :
    (s.add e).hCapacity = if 5 * s.hSize < 4 * s.hCapacity then s.hCapacity else 2 * s.hCapacity := by
  split
  · next hb => rw [add_below s e hc hb]; exact linkNode_hCapacity s e
  · next hb =>
    rw [add_grow s e hc hb h.wf]
    show (s.grow.linkNode e).hCapacity = _
    rw [linkNode_hCapacity, grow_hCapacity h.wf]; omega

theorem add_hSize [DecidableEq α] {s : HashSet α} (e : α) (h : s.Inv) :
    (s.add e).hSize = s.hSize + (if s.contains e = true then 0 else 1) := by
  cases hc : s.contains e with
  | true => rw [add_of_contains s e hc]; simp
  | false =>
    by_cases hb : 5 * s.hSize < 4 * s.hCapacity
    · rw [add_below s e hc hb]; simp
    · rw [add_grow s e hc hb h.wf]; simp

/-! ## Sets built from a sequence of adds -/

theorem contains_addAll_iff [DecidableEq α] (h : α → Nat) (xs : List α) (x : α) :
    ((create h).addAll xs).contains x = true ↔ x ∈ xs := by
  have hinv : ((create h).addAll xs).Inv := (addAll_reachable xs (Reachable.create h)).inv
  rw [contains_iff hinv.home, mem_elems_addAll xs x (create_Inv h)]
  simp [elems, create]

theorem hSize_addAll_card [DecidableEq α] (h : α → Nat) (xs : List α) :
    ((create h).addAll xs).hSize = xs.toFinset.card := by
  have hinv : ((create h).addAll xs).Inv := (addAll_reachable xs (Reachable.create h)).inv
  rw [hinv.size_eq, ← List.toFinset_card_of_nodup hinv.nodup]
  congr 1
  ext x
  rw [List.mem_toFinset, List.mem_toFinset, mem_elems_addAll xs x (create_Inv h)]
  simp [elems, create]

theorem hSize_addAll_nodup [DecidableEq α] (h : α → Nat) (xs : List α) (hd : xs.Nodup) :
    ((create h).addAll xs).hSize = xs.length := by
  rw [hSize_addAll_card, List.toFinset_card_of_nodup hd]

/-- With 8 stored elements the array still has its initial 10 cells. -/
theorem hCapacity_of_hSize_eight {s : HashSet α} (h : s.Inv) (h8 : s.hSize = 8) :
    s.hCapacity = 10 := by
  obtain ⟨k, hk⟩ := h.doubling
  have ht := h.tight
  unfold DEFAULT_CAPACITY at hk ht
  cases k with
  | zero => simpa using hk
  | succ k =>
    have : 1 ≤ 2 ^ k := Nat.one_le_two_pow
    rw [pow_succ] at hk
    omega

/-- With 9 stored elements the array has grown exactly once, to 20 cells. -/
theorem hCapacity_of_hSize_nine {s : HashSet α} (h : s.Inv) (h9 : s.hSize = 9) :
    s.hCapacity = 20 := by
  obtain ⟨k, hk⟩ := h.doubling
  have ht := h.tight
  have hl := h.load
  unfold DEFAULT_CAPACITY at hk ht
  cases k with
  | zero => simp at hk; omega
  | succ k =>
    cases k with
    | zero => simpa using hk
    | succ k =>
      have : 1 ≤ 2 ^ k := Nat.one_le_two_pow
      rw [pow_succ, pow_succ] at hk
      omega

/-! ## The contract of `add`, `contains` and `size` -/

/-- C1: in the set obtained from `create h` by adding the elements of `xs` in
order, `contains x` is true exactly when `x` occurs in `xs`; growth steps lose
nothing and invent nothing. -/
theorem contains_addAll_create [DecidableEq α] (h : α → Nat) (xs : List α) (x : α) :
    ((create h).addAll xs).contains x = true ↔ x ∈ xs :=
  contains_addAll_iff h xs x

/-- C2: `size()` of the set obtained from `create h` by adding the elements of
`xs` in order is the number of distinct elements of `xs`. -/
theorem size_addAll_create [DecidableEq α] (h : α → Nat) (xs : List α) :
    ((create h).addAll xs).size = xs.toFinset.card ∧
      ((create h).addAll xs).size = xs.dedup.length := by
  have hcard : ((create h).addAll xs).size = xs.toFinset.card := hSize_addAll_card h xs
  exact ⟨hcard, by rw [hcard, List.card_toFinset]⟩

/-- C3: on a reachable set, after `add(e)` the element is contained, and the
size grew by exactly 0 if `e` was contained before and by exactly 1 if not,
whichever branch of `add` ran. -/
theorem add_contains_and_size [DecidableEq α] (s : HashSet α) (e : α) (hr : Reachable s) :
    (s.add e).contains e = true ∧
      (s.add e).size = s.size + (if s.contains e = true then 0 else 1) := by
  have hinv := hr.inv
  refine ⟨?_, add_hSize e hinv⟩
  rw [contains_iff (add_Inv e hinv).home, mem_elems_add e e hinv]
  exact Or.inl rfl

/-- Witness for C3: adding the new element 8 to the table holding 0..7, the
call that grows the array. -/
theorem add_contains_and_size_witness :
    Reachable sampleEight ∧ (sampleEight.add 8).contains 8 = true ∧
      (sampleEight.add 8).size = sampleEight.size + (if sampleEight.contains 8 = true then 0 else 1) :=
  ⟨addAll_reachable _ (Reachable.create _),
    add_contains_and_size sampleEight 8 (addAll_reachable _ (Reachable.create _))⟩

/-- C4: on a reachable set, `add(e)` of an element that is already contained
returns the state unchanged: same capacity, same size, same chain in every
bucket, no resize even at the 0.8 threshold.  Hence adding any element twice
in a row gives the same state as adding it once. -/
theorem add_duplicate_noop [DecidableEq α] (s : HashSet α) (e : α) (hr : Reachable s) :
    (s.contains e = true →
        s.add e = s ∧ (s.add e).hCapacity = s.hCapacity ∧ (s.add e).size = s.size ∧
          ∀ i, (s.add e).chainAt i = s.chainAt i) ∧
      (s.add e).add e = s.add e := by
  constructor
  · intro hc
    rw [add_of_contains s e hc]
    exact ⟨rfl, rfl, rfl, fun _ => rfl⟩
  · apply add_of_contains
    rw [contains_iff (add_Inv e hr.inv).home, mem_elems_add e e hr.inv]
    exact Or.inl rfl

/-- Witness for C4: the table holding 0..7 is exactly at the threshold
(8 of 10), and adding 3 again changes nothing. -/
theorem add_duplicate_noop_witness :
    Reachable sampleEight ∧ sampleEight.contains 3 = true ∧
      5 * sampleEight.size = 4 * sampleEight.hCapacity ∧
      (sampleEight.add 3 = sampleEight ∧ (sampleEight.add 3).hCapacity = sampleEight.hCapacity ∧
        (sampleEight.add 3).size = sampleEight.size ∧
        ∀ i, (sampleEight.add 3).chainAt i = sampleEight.chainAt i) ∧
      (sampleEight.add 3).add 3 = sampleEight.add 3 :=
  ⟨addAll_reachable _ (Reachable.create _), by decide, by decide,
    (add_duplicate_noop sampleEight 3 (addAll_reachable _ (Reachable.create _))).1 (by decide),
    (add_duplicate_noop sampleEight 3 (addAll_reachable _ (Reachable.create _))).2⟩

/-! ## Load factor and capacity -/

/-- C5: in every reachable state (the fresh set and the state after each
`add`), `5 * size ≤ 4 * capacity`, that is `size ≤ ⌊0.8 * capacity⌋`. -/
theorem load_factor_bound [DecidableEq α] (s : HashSet α) (hr : Reachable s) :
    5 * s.size ≤ 4 * s.hCapacity ∧ s.size ≤ ⌊(4 : ℚ) / 5 * (s.hCapacity : ℚ)⌋₊ :=
  ⟨hr.inv.load, (le_floor_load_iff _ _).mpr hr.inv.load⟩

/-- Witness for C5: the table after the ninth add. -/
theorem load_factor_bound_witness :
    Reachable (sampleEight.add 8) ∧
      5 * (sampleEight.add 8).size ≤ 4 * (sampleEight.add 8).hCapacity ∧
      (sampleEight.add 8).size ≤ ⌊(4 : ℚ) / 5 * ((sampleEight.add 8).hCapacity : ℚ)⌋₊ :=
  ⟨Reachable.add 8 (addAll_reachable _ (Reachable.create _)),
    load_factor_bound _ (Reachable.add 8 (addAll_reachable _ (Reachable.create _)))⟩

/-- C6: in every reachable state the capacity is at least 10 and is
`10 * 2 ^ k` for some `k`, and no `add` decreases the capacity. -/
theorem capacity_invariant [DecidableEq α] (s : HashSet α) (hr : Reachable s) :
    10 ≤ s.hCapacity ∧ (∃ k, s.hCapacity = 10 * 2 ^ k) ∧
      ∀ e, s.hCapacity ≤ (s.add e).hCapacity := by
  obtain ⟨k, hk⟩ := hr.inv.doubling
  unfold DEFAULT_CAPACITY at hk
  refine ⟨?_, ⟨k, hk⟩, ?_⟩
  · have : 1 ≤ 2 ^ k := Nat.one_le_two_pow
    omega
  · intro e
    cases hc : s.contains e with
    | true => rw [add_of_contains s e hc]
    | false =>
      rw [add_hCapacity_new e hr.inv hc]
      split <;> omega

/-- Witness for C6: the table holding 0..7. -/
theorem capacity_invariant_witness :
    Reachable sampleEight ∧ 10 ≤ sampleEight.hCapacity ∧
      (∃ k, sampleEight.hCapacity = 10 * 2 ^ k) ∧
      ∀ e, sampleEight.hCapacity ≤ (sampleEight.add e).hCapacity :=
  ⟨addAll_reachable _ (Reachable.create _),
    capacity_invariant sampleEight (addAll_reachable _ (Reachable.create _))⟩

/-- C7: on a reachable set and an element not contained in it, `add` doubles
the capacity when `(size + 1) / capacity > 0.8` and leaves it unchanged
otherwise; the test of the code, `size / capacity < 0.8`, holds exactly when
`size + 1 ≤ ⌊0.8 * capacity⌋`. -/
theorem growth_exactly_when_needed [DecidableEq α] (s : HashSet α) (e : α)
    (hr : Reachable s) (hc : s.contains e = false) :
    (s.add e).hCapacity =
        (if (4 : ℚ) / 5 < ((s.size : ℚ) + 1) / (s.hCapacity : ℚ) then 2 * s.hCapacity
         else s.hCapacity) ∧
      (s.belowLoadFactor = true ↔ s.size + 1 ≤ ⌊(4 : ℚ) / 5 * (s.hCapacity : ℚ)⌋₊) := by
  obtain ⟨k, hk⟩ := hr.inv.doubling
  unfold DEFAULT_CAPACITY at hk
  have hpos := hr.inv.wf.2
  constructor
  · rw [add_hCapacity_new e hr.inv hc]
    have hiff := ratio_gt_iff s.hSize s.hCapacity hpos
    show _ = if (4 : ℚ) / 5 < ((s.hSize : ℚ) + 1) / (s.hCapacity : ℚ) then _ else _
    by_cases hb : 5 * s.hSize < 4 * s.hCapacity
    · have h2 : ¬ (4 : ℚ) / 5 < ((s.hSize : ℚ) + 1) / (s.hCapacity : ℚ) := by
        rw [hiff]; omega
      rw [if_pos hb, if_neg h2]
    · have h2 : (4 : ℚ) / 5 < ((s.hSize : ℚ) + 1) / (s.hCapacity : ℚ) := by
        rw [hiff]; omega
      rw [if_neg hb, if_pos h2]
  · rw [le_floor_load_iff]
    simp only [belowLoadFactor, decide_eq_true_eq, size]
    omega

/-- Witness for C7: the ninth add to the table holding 0..7. -/
theorem growth_exactly_when_needed_witness :
    Reachable sampleEight ∧ sampleEight.contains 8 = false ∧
      (sampleEight.add 8).hCapacity =
        (if (4 : ℚ) / 5 < ((sampleEight.size : ℚ) + 1) / (sampleEight.hCapacity : ℚ)
          then 2 * sampleEight.hCapacity else sampleEight.hCapacity) ∧
      (sampleEight.belowLoadFactor = true ↔
        sampleEight.size + 1 ≤ ⌊(4 : ℚ) / 5 * (sampleEight.hCapacity : ℚ)⌋₊) :=
  ⟨addAll_reachable _ (Reachable.create _), by decide,
    growth_exactly_when_needed sampleEight 8 (addAll_reachable _ (Reachable.create _)) (by decide)⟩

/-- C8: for every hash function and nine pairwise distinct elements added in
order to a fresh set, after the first eight adds the capacity is still 10 and
the size is 8; after the ninth the capacity is 20, the size is 9 and all nine
elements are contained. -/
theorem nine_distinct_adds [DecidableEq α] (h : α → Nat)
    (e1 e2 e3 e4 e5 e6 e7 e8 e9 : α)
    (hd : [e1, e2, e3, e4, e5, e6, e7, e8, e9].Nodup) :
    ((create h).addAll [e1, e2, e3, e4, e5, e6, e7, e8]).hCapacity = 10 ∧
      ((create h).addAll [e1, e2, e3, e4, e5, e6, e7, e8]).size = 8 ∧
      ((create h).addAll [e1, e2, e3, e4, e5, e6, e7, e8, e9]).hCapacity = 20 ∧
      ((create h).addAll [e1, e2, e3, e4, e5, e6, e7, e8, e9]).size = 9 ∧
      ∀ e ∈ [e1, e2, e3, e4, e5, e6, e7, e8, e9],
        ((create h).addAll [e1, e2, e3, e4, e5, e6, e7, e8, e9]).contains e = true := by
  have hd8 : [e1, e2, e3, e4, e5, e6, e7, e8].Nodup := by
    have happ : [e1, e2, e3, e4, e5, e6, e7, e8, e9] = [e1, e2, e3, e4, e5, e6, e7, e8] ++ [e9] := rfl
    rw [happ] at hd
    exact hd.of_append_left
  have h8 := hSize_addAll_nodup h _ hd8
  have h9 := hSize_addAll_nodup h _ hd
  have i8 := (addAll_reachable [e1, e2, e3, e4, e5, e6, e7, e8] (Reachable.create h)).inv
  have i9 := (addAll_reachable [e1, e2, e3, e4, e5, e6, e7, e8, e9] (Reachable.create h)).inv
  exact ⟨hCapacity_of_hSize_eight i8 h8, h8, hCapacity_of_hSize_nine i9 h9, h9,
    fun e he => (contains_addAll_iff h _ e).mpr he⟩

/-- Witness for C8: the numbers 0..8 under `sampleHash`. -/
theorem nine_distinct_adds_witness :
    [0, 1, 2, 3, 4, 5, 6, 7, 8].Nodup ∧
      ((create sampleHash).addAll [0, 1, 2, 3, 4, 5, 6, 7]).hCapacity = 10 ∧
      ((create sampleHash).addAll [0, 1, 2, 3, 4, 5, 6, 7]).size = 8 ∧
      ((create sampleHash).addAll [0, 1, 2, 3, 4, 5, 6, 7, 8]).hCapacity = 20 ∧
      ((create sampleHash).addAll [0, 1, 2, 3, 4, 5, 6, 7, 8]).size = 9 ∧
      ∀ e ∈ [0, 1, 2, 3, 4, 5, 6, 7, 8],
        ((create sampleHash).addAll [0, 1, 2, 3, 4, 5, 6, 7, 8]).contains e = true :=
  ⟨by decide, nine_distinct_adds sampleHash 0 1 2 3 4 5 6 7 8 (by decide)⟩

/-! ## Introspection -/

/-- C9: in every reachable state the sum of `elementsAtIndex i` over all
`i < capacity` equals `size()`. -/
theorem size_accounting [DecidableEq α] (s : HashSet α) (hr : Reachable s) :
    ((List.range s.hCapacity).map s.elementsAtIndex).sum = s.size := by
  rw [sum_elementsAtIndex hr.inv.wf]
  exact hr.inv.size_eq.symm

/-- Witness for C9: the table right after the growth caused by the ninth add. -/
theorem size_accounting_witness :
    Reachable (sampleEight.add 8) ∧
      ((List.range (sampleEight.add 8).hCapacity).map (sampleEight.add 8).elementsAtIndex).sum =
        (sampleEight.add 8).size :=
  ⟨Reachable.add 8 (addAll_reachable _ (Reachable.create _)),
    size_accounting _ (Reachable.add 8 (addAll_reachable _ (Reachable.create _)))⟩

/-- C10: for every state and every index, `elementsAtIndex index` is exactly
the number of nodes of the chain at `index` when `index < capacity` (the
post-increment in `return numElement++` does not change the returned value),
and 0 when `index ≥ capacity`. -/
theorem elementsAtIndex_exact (s : HashSet α) (index : Nat) :
    s.elementsAtIndex index =
      if index < s.hCapacity then (s.chainAt index).length else 0 :=
  elementsAtIndex_eq s index

/-! ## Bucket contents -/

theorem isElementAtIndex_iff [DecidableEq α] (s : HashSet α) (e : α) (i : Nat) :
    s.isElementAtIndex e i = true ↔ i < s.hCapacity ∧ e ∈ s.chainAt i := by
  unfold isElementAtIndex
  by_cases h : i < s.hCapacity
  · have h2 : ¬ i ≥ s.hCapacity := by omega
    simp [h, h2, searchLoop_iff]
  · have h2 : i ≥ s.hCapacity := by omega
    simp [h, h2]

/-- The chains of buckets `0, 1, ..., hCapacity - 1`, concatenated in this
order, are the stored elements. -/
theorem flatten_chains_eq {s : HashSet α} (h : s.WF) :
    ((List.range s.hCapacity).map s.chainAt).flatten = s.elems := by
  have h2 := map_range_getD s.hash
  rw [h.1] at h2
  unfold elems
  rw [← h2]
  rfl

theorem belowLoadFactor_iff_ratio (s : HashSet α) (hpos : 0 < s.hCapacity) :
    s.belowLoadFactor = true ↔ (s.size : ℚ) / (s.hCapacity : ℚ) < 4 / 5 := by
  have hc2 : (0 : ℚ) < (s.hCapacity : ℚ) := by exact_mod_cast hpos
  simp only [belowLoadFactor, decide_eq_true_eq, size]
  rw [div_lt_iff₀ hc2]
  constructor
  · intro h
    have h2 : ((5 * s.hSize : Nat) : ℚ) < ((4 * s.hCapacity : Nat) : ℚ) := by exact_mod_cast h
    push_cast at h2
    linarith
  · intro h
    have h2 : ((5 * s.hSize : Nat) : ℚ) < ((4 * s.hCapacity : Nat) : ℚ) := by push_cast; linarith
    exact_mod_cast h2

/-- The chains after an `add` that does not grow the array. -/
theorem chainAt_add_below [DecidableEq α] {s : HashSet α} (e : α) (h : s.Inv)
    (hc : s.contains e = false) (hb : 5 * s.hSize < 4 * s.hCapacity) (j : Nat) :
    (s.add e).chainAt j =
      if s.hashFunction e % s.hCapacity = j then s.chainAt j ++ [e] else s.chainAt j := by
  rw [add_below s e hc hb]
  exact chainAt_linkNode e h.wf j

/-- The chains after an `add` that grows the array. -/
theorem chainAt_add_grow [DecidableEq α] {s : HashSet α} (e : α) (h : s.Inv)
    (hc : s.contains e = false) (hb : ¬ 5 * s.hSize < 4 * s.hCapacity) (j : Nat) :
    (s.add e).chainAt j =
      s.elems.filter (fun x => s.hashFunction x % (2 * s.hCapacity) = j) ++
        (if s.hashFunction e % (2 * s.hCapacity) = j then [e] else []) := by
  rw [add_grow s e hc hb h.wf]
  have h1 := chainAt_linkNode e (grow_WF h.wf) j
  rw [grow_hashFunction h.wf, grow_hCapacity h.wf, chainAt_grow h.wf, Nat.mul_comm] at h1
  refine Eq.trans h1 ?_
  split <;> simp

/-- C11: for every state, element and index, `isElementAtIndex e i` is true
exactly when `i < capacity` and `e` equals some element of the chain at bucket
`i`; for every index `capacity + k`, that is every index `≥ capacity`, it
returns false. -/
theorem isElementAtIndex_exact [DecidableEq α] (s : HashSet α) (e : α) (i : Nat) :
    (s.isElementAtIndex e i = true ↔ i < s.hCapacity ∧ e ∈ s.chainAt i) ∧
      ∀ k, s.isElementAtIndex e (s.hCapacity + k) = false := by
  refine ⟨isElementAtIndex_iff s e i, ?_⟩
  intro k
  rw [← Bool.not_eq_true, isElementAtIndex_iff]
  omega

/-! ## The hash function of a reachable set -/

theorem add_hashFunction [DecidableEq α] {s : HashSet α} (e : α) (hwf : s.WF) :
    (s.add e).hashFunction = s.hashFunction := by
  cases hc : s.contains e with
  | true => rw [add_of_contains s e hc]
  | false =>
    by_cases hb : 5 * s.hSize < 4 * s.hCapacity
    · rw [add_below s e hc hb]
      exact linkNode_hashFunction s e
    · rw [add_grow s e hc hb hwf]
      show (s.grow.linkNode e).hashFunction = _
      rw [linkNode_hashFunction, grow_hashFunction hwf]

theorem ReachableFrom.reachable [DecidableEq α] {h : α → Nat} {s : HashSet α}
    (hr : ReachableFrom h s) : Reachable s := by
  induction hr with
  | create => exact Reachable.create h
  | add e _ ih => exact Reachable.add e ih

/-- The hash function given to the constructor is the one every later state
uses. -/
theorem ReachableFrom.hashFunction_eq [DecidableEq α] {h : α → Nat} {s : HashSet α}
    (hr : ReachableFrom h s) : s.hashFunction = h := by
  induction hr with
  | create => rfl
  | add e hprev ih => rw [add_hashFunction e hprev.reachable.inv.wf, ih]

theorem addAll_reachableFrom [DecidableEq α] {h : α → Nat} {s : HashSet α} (xs : List α)
    (hr : ReachableFrom h s) : ReachableFrom h (s.addAll xs) := by
  induction xs generalizing s with
  | nil => exact hr
  | cons x xs ih => exact ih (ReachableFrom.add x hr)

/-- C12: in every state reachable from `create h` by `add` calls, each element
stored in the chain at bucket `i` has `h element % capacity = i`; equivalently
`isElementAtIndex e i` is true exactly when `contains e` is true and
`i = h e % capacity`. -/
theorem home_bucket_invariant [DecidableEq α] (h : α → Nat) (s : HashSet α)
    (hr : ReachableFrom h s) :
    (∀ i x, x ∈ s.chainAt i → h x % s.hCapacity = i) ∧
      ∀ e i, s.isElementAtIndex e i = true ↔
        (s.contains e = true ∧ i = h e % s.hCapacity) := by
  have hinv := hr.reachable.inv
  have hhome : ∀ i x, x ∈ s.chainAt i → h x % s.hCapacity = i := by
    intro i x hx
    have := hinv.home i x hx
    rwa [hr.hashFunction_eq] at this
  refine ⟨hhome, ?_⟩
  intro e i
  rw [isElementAtIndex_iff]
  unfold contains
  rw [searchLoop_iff, hr.hashFunction_eq]
  constructor
  · rintro ⟨_, hm⟩
    rw [hhome i e hm]
    exact ⟨hm, rfl⟩
  · rintro ⟨hm, rfl⟩
    exact ⟨Nat.mod_lt _ hinv.wf.2, hm⟩

/-- Witness for C12: the table right after the growth caused by adding 40 to
the table holding `0, 20, 1, 21, 2, 22, 3, 23`; the element 22 has hash value
11 and sits in bucket `11 % 20 = 11`. -/
theorem home_bucket_invariant_witness :
    ReachableFrom sampleHash (sampleWrapped.add 40) ∧
      (sampleWrapped.add 40).hCapacity = 20 ∧ sampleHash 22 = 11 ∧
      (sampleWrapped.add 40).chainAt 11 = [22, 23] ∧
      (∀ i x, x ∈ (sampleWrapped.add 40).chainAt i →
        sampleHash x % (sampleWrapped.add 40).hCapacity = i) ∧
      ∀ e i, (sampleWrapped.add 40).isElementAtIndex e i = true ↔
        ((sampleWrapped.add 40).contains e = true ∧
          i = sampleHash e % (sampleWrapped.add 40).hCapacity) :=
  ⟨ReachableFrom.add 40 (addAll_reachableFrom _ ReachableFrom.create), by decide, by decide,
    by decide,
    home_bucket_invariant sampleHash _
      (ReachableFrom.add 40 (addAll_reachableFrom _ ReachableFrom.create))⟩

/-! ## Where `add` puts the nodes -/

/-- C16: on a set reachable from `create h` by `add` calls, with
`size / capacity < 0.8`, and an element `e` not contained in it, after `add e`
the chain at bucket `h e % capacity` is the old chain with `e` appended at the
end, and the chain of every other bucket and the capacity are unchanged. -/
theorem add_appends_at_tail [DecidableEq α] (h : α → Nat) (s : HashSet α) (e : α)
    (hr : ReachableFrom h s) (hc : s.contains e = false)
    (hb : (s.size : ℚ) / (s.hCapacity : ℚ) < 4 / 5) :
    (s.add e).chainAt (h e % s.hCapacity) = s.chainAt (h e % s.hCapacity) ++ [e] ∧
      (∀ j, j ≠ h e % s.hCapacity → (s.add e).chainAt j = s.chainAt j) ∧
      (s.add e).hCapacity = s.hCapacity := by
  have hinv := hr.reachable.inv
  have hb2 : 5 * s.hSize < 4 * s.hCapacity := by
    have := (belowLoadFactor_iff_ratio s hinv.wf.2).mpr hb
    simpa [belowLoadFactor] using this
  have hch := chainAt_add_below e hinv hc hb2
  rw [hr.hashFunction_eq] at hch
  refine ⟨?_, ?_, ?_⟩
  · rw [hch, if_pos rfl]
  · intro j hj
    rw [hch, if_neg (fun h => hj h.symm)]
  · rw [add_hCapacity_new e hinv hc, if_pos hb2]

/-- Witness for C16: adding 23 to the table that holds 2 and 22.  The hash
values are 1, 11 and 11, so all three go to bucket 1 of the 10, whose chain
`[2, 22]` becomes `[2, 22, 23]`. -/
theorem add_appends_at_tail_witness :
    ReachableFrom sampleHash ((create sampleHash).addAll [2, 22]) ∧
      ((create sampleHash).addAll [2, 22]).contains 23 = false ∧
      sampleHash 23 % ((create sampleHash).addAll [2, 22]).hCapacity = 1 ∧
      ((create sampleHash).addAll [2, 22]).chainAt 1 = [2, 22] ∧
      (((create sampleHash).addAll [2, 22]).add 23).chainAt 1 = [2, 22, 23] ∧
      (((create sampleHash).addAll [2, 22]).add 23).chainAt
          (sampleHash 23 % ((create sampleHash).addAll [2, 22]).hCapacity) =
        ((create sampleHash).addAll [2, 22]).chainAt
          (sampleHash 23 % ((create sampleHash).addAll [2, 22]).hCapacity) ++ [23] ∧
      (∀ j, j ≠ sampleHash 23 % ((create sampleHash).addAll [2, 22]).hCapacity →
        (((create sampleHash).addAll [2, 22]).add 23).chainAt j =
          ((create sampleHash).addAll [2, 22]).chainAt j) ∧
      (((create sampleHash).addAll [2, 22]).add 23).hCapacity =
        ((create sampleHash).addAll [2, 22]).hCapacity :=
  ⟨addAll_reachableFrom _ ReachableFrom.create, by decide, by decide, by decide, by decide,
    add_appends_at_tail sampleHash ((create sampleHash).addAll [2, 22]) 23
      (addAll_reachableFrom _ ReachableFrom.create) (by decide)
      ((belowLoadFactor_iff_ratio ((create sampleHash).addAll [2, 22]) (by decide)).mp
        (by decide))⟩

/-- C17: on a set reachable from `create h` by `add` calls and a new element
`e` whose `add` grows the array, the capacity doubles and every chain `j` of
the new table is the concatenation of the old chains of buckets
`0, 1, ..., oldCapacity - 1`, in this order, filtered to the elements `x` with
`h x % (2 * oldCapacity) = j`, with `e` appended last on the chain
`j = h e % (2 * oldCapacity)`; every element stored before occurs exactly once
in the new table. -/
theorem growth_is_ordered_rehash [DecidableEq α] (h : α → Nat) (s : HashSet α) (e : α)
    (hr : ReachableFrom h s) (hc : s.contains e = false)
    (hb : ¬ (s.size : ℚ) / (s.hCapacity : ℚ) < 4 / 5) :
    (s.add e).hCapacity = 2 * s.hCapacity ∧
      (∀ j, (s.add e).chainAt j =
        (((List.range s.hCapacity).map s.chainAt).flatten.filter
            (fun x => h x % (2 * s.hCapacity) = j)) ++
          (if h e % (2 * s.hCapacity) = j then [e] else [])) ∧
      ∀ x, s.contains x = true →
        (((List.range (s.add e).hCapacity).map (s.add e).chainAt).flatten).count x = 1 := by
  have hinv := hr.reachable.inv
  have hinv2 := add_Inv e hinv
  have hb2 : ¬ 5 * s.hSize < 4 * s.hCapacity := by
    intro h
    apply hb
    apply (belowLoadFactor_iff_ratio s hinv.wf.2).mp
    simpa [belowLoadFactor] using h
  refine ⟨?_, ?_, ?_⟩
  · rw [add_hCapacity_new e hinv hc, if_neg hb2]
  · intro j
    rw [flatten_chains_eq hinv.wf]
    have hch := chainAt_add_grow e hinv hc hb2 j
    rw [hr.hashFunction_eq] at hch
    exact hch
  · intro x hx
    rw [flatten_chains_eq hinv2.wf]
    apply List.count_eq_one_of_mem hinv2.nodup
    rw [mem_elems_add e x hinv]
    exact Or.inr ((contains_iff hinv.home x).mp hx)

/-- Witness for C17: adding 40 to the table holding `0, 20, 1, 21, 2, 22, 3, 23`
in buckets 0 and 1 of 10.  The growth sends the elements with hash values 10
and 11 to buckets 10 and 11 of 20, keeps the order inside each chain, and 40,
with hash value 20, comes last in bucket 0. -/
theorem growth_is_ordered_rehash_witness :
    ReachableFrom sampleHash sampleWrapped ∧ sampleWrapped.contains 40 = false ∧
      sampleWrapped.chainAt 0 = [0, 20, 1, 21] ∧ sampleWrapped.chainAt 1 = [2, 22, 3, 23] ∧
      (sampleWrapped.add 40).chainAt 0 = [0, 1, 40] ∧
      (sampleWrapped.add 40).chainAt 1 = [2, 3] ∧
      (sampleWrapped.add 40).chainAt 10 = [20, 21] ∧
      (sampleWrapped.add 40).chainAt 11 = [22, 23] ∧
      (sampleWrapped.add 40).hCapacity = 2 * sampleWrapped.hCapacity ∧
      (∀ j, (sampleWrapped.add 40).chainAt j =
        (((List.range sampleWrapped.hCapacity).map sampleWrapped.chainAt).flatten.filter
            (fun x => sampleHash x % (2 * sampleWrapped.hCapacity) = j)) ++
          (if sampleHash 40 % (2 * sampleWrapped.hCapacity) = j then [40] else [])) ∧
      ∀ x, sampleWrapped.contains x = true →
        (((List.range (sampleWrapped.add 40).hCapacity).map
            (sampleWrapped.add 40).chainAt).flatten).count x = 1 :=
  ⟨addAll_reachableFrom _ ReachableFrom.create, by decide, by decide, by decide, by decide,
    by decide, by decide, by decide,
    growth_is_ordered_rehash sampleHash sampleWrapped 40
      (addAll_reachableFrom _ ReachableFrom.create) (by decide)
      (fun h => absurd ((belowLoadFactor_iff_ratio sampleWrapped (by decide)).mpr h)
        (by decide))⟩

/-- C18: in every reachable state the concatenation of all bucket chains has
no two equal elements, within one chain or across chains. -/
theorem stored_elements_unique [DecidableEq α] (s : HashSet α) (hr : Reachable s) :
    (((List.range s.hCapacity).map s.chainAt).flatten).Nodup := by
  rw [flatten_chains_eq hr.inv.wf]
  exact hr.inv.nodup

/-- Witness for C18: the table right after the growth caused by the ninth
add. -/
theorem stored_elements_unique_witness :
    Reachable (sampleEight.add 8) ∧
      (((List.range (sampleEight.add 8).hCapacity).map (sampleEight.add 8).chainAt).flatten).Nodup :=
  ⟨Reachable.add 8 (addAll_reachable _ (Reachable.create _)),
    stored_elements_unique _ (Reachable.add 8 (addAll_reachable _ (Reachable.create _)))⟩

/-! ## Copying and moving -/

/-- While `copy` points to the last node built, the loop appends the rest of
the source chain and leaves `copy` on the last node. -/
theorem copyLoop_eq (next built : List α) (pos : Nat) (h : pos + 1 = built.length) :
    copyLoop next (built, pos) = (built ++ next, pos + next.length) := by
  induction next generalizing built pos with
  | nil => simp [copyLoop]
  | cons y ys ih =>
    have htake : built.take (pos + 1) = built := List.take_of_length_le (by omega)
    simp only [copyLoop, htake]
    rw [ih (built ++ [y]) (pos + 1) (by simp; omega)]
    simp only [List.append_assoc, List.singleton_append, List.length_cons, Prod.mk.injEq,
      true_and]
    omega

theorem drop_length_cons_eq (x : α) (next : List α) :
    (x :: next).drop next.length = [(x :: next).getLast (List.cons_ne_nil x next)] := by
  induction next generalizing x with
  | nil => rfl
  | cons y ys ih =>
    rw [List.length_cons, List.drop_succ_cons, ih y, List.getLast_cons (List.cons_ne_nil y ys)]

theorem copyBucket_nil : copyBucket ([] : List α) = [] := rfl

theorem copyBucket_of_ne_nil (l : List α) (h : l ≠ []) : copyBucket l = [l.getLast h] := by
  cases l with
  | nil => exact absurd rfl h
  | cons x next =>
    simp only [copyBucket]
    rw [copyLoop_eq next [x] 0 rfl]
    simp only [List.singleton_append, Nat.zero_add]
    exact drop_length_cons_eq x next

theorem copyBucket_length (l : List α) : (copyBucket l).length = min 1 l.length := by
  cases l with
  | nil => rfl
  | cons x next => rw [copyBucket_of_ne_nil _ (List.cons_ne_nil x next)]; simp

theorem chainAt_map_range (f : Nat → List α) (n i : Nat) (hi : i < n) :
    ((List.range n).map f).getD i [] = f i := by
  simp [List.getD_eq_getElem?_getD, List.getElem?_map, List.getElem?_range hi]

theorem chainAt_copyConstruct (s : HashSet α) (i : Nat) (hi : i < s.hCapacity) :
    (copyConstruct s).chainAt i = copyBucket (s.chainAt i) :=
  chainAt_map_range (fun i => copyBucket (s.chainAt i)) s.hCapacity i hi

theorem chainAt_copyAssign (self s : HashSet α) (i : Nat) (hi : i < s.hCapacity) :
    (copyAssign self s false).chainAt i = copyBucket (s.chainAt i) :=
  chainAt_map_range (fun i => copyBucket (s.chainAt i)) s.hCapacity i hi

theorem sum_map_le_sum_map (l : List Nat) (f g : Nat → Nat) (hle : ∀ i ∈ l, f i ≤ g i) :
    (l.map f).sum ≤ (l.map g).sum := by
  induction l with
  | nil => simp
  | cons a l ih =>
    have h1 := hle a (List.mem_cons_self a l)
    have h2 := ih (fun i hi => hle i (List.mem_cons_of_mem a hi))
    simp only [List.map_cons, List.sum_cons]
    omega

theorem sum_map_eq_iff (l : List Nat) (f g : Nat → Nat) (hle : ∀ i ∈ l, f i ≤ g i) :
    (l.map f).sum = (l.map g).sum ↔ ∀ i ∈ l, f i = g i := by
  induction l with
  | nil => simp
  | cons a l ih =>
    have h1 := hle a (List.mem_cons_self a l)
    have h2 := sum_map_le_sum_map l f g (fun i hi => hle i (List.mem_cons_of_mem a hi))
    have h3 := ih (fun i hi => hle i (List.mem_cons_of_mem a hi))
    simp only [List.map_cons, List.sum_cons, List.forall_mem_cons]
    constructor
    · intro h
      exact ⟨by omega, h3.mp (by omega)⟩
    · rintro ⟨ha, hl⟩
      rw [ha, h3.mpr hl]

/-- The bucket counts of a table whose array holds `copyBucket` of each chain of
`s` add up to the size of `s` exactly when no chain of `s` has two nodes,
provided the counts of `s` itself add up to its size. -/
theorem copied_counts_iff (s t : HashSet α) (hcap : t.hCapacity = s.hCapacity)
    (hch : ∀ i, i < s.hCapacity → t.chainAt i = copyBucket (s.chainAt i))
    (hsize : t.size = s.size)
    (hacc : ((List.range s.hCapacity).map s.elementsAtIndex).sum = s.size) :
    ((List.range t.hCapacity).map t.elementsAtIndex).sum = t.size ↔
      ∀ i, i < s.hCapacity → (s.chainAt i).length ≤ 1 := by
  rw [hsize, ← hacc, hcap]
  have hle : ∀ i ∈ List.range s.hCapacity, t.elementsAtIndex i ≤ s.elementsAtIndex i := by
    intro i hi
    have hi2 : i < s.hCapacity := List.mem_range.mp hi
    rw [elementsAtIndex_eq, elementsAtIndex_eq, hcap, if_pos hi2, if_pos hi2, hch i hi2,
      copyBucket_length]
    omega
  rw [sum_map_eq_iff _ _ _ hle]
  constructor
  · intro h i hi
    have := h i (List.mem_range.mpr hi)
    rw [elementsAtIndex_eq, elementsAtIndex_eq, hcap, if_pos hi, if_pos hi, hch i hi,
      copyBucket_length] at this
    omega
  · intro h i hi
    have hi2 : i < s.hCapacity := List.mem_range.mp hi
    have := h i hi2
    rw [elementsAtIndex_eq, elementsAtIndex_eq, hcap, if_pos hi2, if_pos hi2, hch i hi2,
      copyBucket_length]
    omega

/-- C13, evaluated on the table holding 0 and 1 in one chain: capacity and size
are copied, but the copy constructor and copy assignment leave in bucket 0 the
one-node chain `[1]` where the source has `[0, 1]`. -/
theorem copy_loses_chain_prefix :
    Reachable sampleTwo ∧ sampleTwo.chainAt 0 = [0, 1] ∧
      (copyConstruct sampleTwo).hCapacity = sampleTwo.hCapacity ∧
      (copyConstruct sampleTwo).size = sampleTwo.size ∧
      (copyConstruct sampleTwo).chainAt 0 = [1] ∧
      (copyAssign (create sampleHash) sampleTwo false).chainAt 0 = [1] :=
  ⟨addAll_reachable _ (Reachable.create _), by decide, by decide, by decide, by decide,
    by decide⟩

/-- C14, evaluated on the table holding 2 and 5: both are contained in the
source, and neither is contained in the copy, which looks every element up in
bucket 0. -/
theorem copy_loses_membership :
    Reachable sampleApart ∧ sampleApart.contains 2 = true ∧ sampleApart.contains 5 = true ∧
      (copyConstruct sampleApart).contains 2 = false ∧
      (copyConstruct sampleApart).contains 5 = false :=
  ⟨addAll_reachable _ (Reachable.create _), by decide, by decide, by decide, by decide⟩

/-- C15: after move construction from `A`, and after move assignment from `A`
into any other set, the destination has the former capacity, size and bucket
chains of `A`, and `A` is left with capacity 0, size 0 and no bucket array. -/
theorem move_transfers_and_empties (A : HashSet α) :
    ((moveConstruct A).1.hCapacity = A.hCapacity ∧ (moveConstruct A).1.size = A.size ∧
        (moveConstruct A).1.hash = A.hash ∧
        (∀ i, (moveConstruct A).1.chainAt i = A.chainAt i) ∧
        (moveConstruct A).2.hCapacity = 0 ∧ (moveConstruct A).2.size = 0 ∧
        (moveConstruct A).2.hash = []) ∧
      ∀ B : HashSet α,
        (moveAssign B A).1.hCapacity = A.hCapacity ∧ (moveAssign B A).1.size = A.size ∧
          (moveAssign B A).1.hash = A.hash ∧
          (∀ i, (moveAssign B A).1.chainAt i = A.chainAt i) ∧
          (moveAssign B A).2.hCapacity = 0 ∧ (moveAssign B A).2.size = 0 ∧
          (moveAssign B A).2.hash = [] :=
  ⟨⟨rfl, rfl, rfl, fun _ => rfl, rfl, rfl, rfl⟩,
    fun _ => ⟨rfl, rfl, rfl, fun _ => rfl, rfl, rfl, rfl⟩⟩

/-- C19 as stated fails on a source that is itself a copy: the copy of the
table holding 0 and 1 has the single chain `[1]` and size 2, so no chain of it
has two elements, yet in its copy the chain lengths add up to 1 and the size
is 2. -/
theorem copy_of_copy_counts_differ :
    ¬ (((List.range (copyConstruct (copyConstruct sampleTwo)).hCapacity).map
            (copyConstruct (copyConstruct sampleTwo)).elementsAtIndex).sum =
          (copyConstruct (copyConstruct sampleTwo)).size ↔
        ∀ i, i < (copyConstruct sampleTwo).hCapacity →
          ((copyConstruct sampleTwo).chainAt i).length ≤ 1) := by
  decide

/-- C19, amended: for every source `s` and every bucket `i < capacity`, the
copy constructor and copy assignment leave at `i` the empty chain when the
chain of `s` at `i` is empty and otherwise the one-node chain holding the last
element of that chain, and size is copied unchanged; when the chain lengths of
`s` add up to its size, those of the copy add up to its size exactly when no
chain of `s` has two or more elements. -/
theorem copy_keeps_last_node (s : HashSet α) :
    (∀ i, i < s.hCapacity →
        (s.chainAt i = [] →
          (copyConstruct s).chainAt i = [] ∧
            ∀ self, (copyAssign self s false).chainAt i = []) ∧
        (∀ hne : s.chainAt i ≠ [],
          (copyConstruct s).chainAt i = [(s.chainAt i).getLast hne] ∧
            ∀ self, (copyAssign self s false).chainAt i = [(s.chainAt i).getLast hne])) ∧
      (copyConstruct s).size = s.size ∧
      (∀ self, (copyAssign self s false).size = s.size) ∧
      (((List.range s.hCapacity).map s.elementsAtIndex).sum = s.size →
        ((((List.range (copyConstruct s).hCapacity).map (copyConstruct s).elementsAtIndex).sum =
              (copyConstruct s).size ↔
            ∀ i, i < s.hCapacity → (s.chainAt i).length ≤ 1) ∧
          ∀ self,
            (((List.range (copyAssign self s false).hCapacity).map
                  (copyAssign self s false).elementsAtIndex).sum =
                (copyAssign self s false).size ↔
              ∀ i, i < s.hCapacity → (s.chainAt i).length ≤ 1))) := by
  refine ⟨?_, rfl, fun _ => rfl, ?_⟩
  · intro i hi
    constructor
    · intro hnil
      refine ⟨?_, fun self => ?_⟩
      · rw [chainAt_copyConstruct s i hi, hnil, copyBucket_nil]
      · rw [chainAt_copyAssign self s i hi, hnil, copyBucket_nil]
    · intro hne
      refine ⟨?_, fun self => ?_⟩
      · rw [chainAt_copyConstruct s i hi, copyBucket_of_ne_nil _ hne]
      · rw [chainAt_copyAssign self s i hi, copyBucket_of_ne_nil _ hne]
  · intro hacc
    exact ⟨copied_counts_iff s (copyConstruct s) rfl (chainAt_copyConstruct s) rfl hacc,
      fun self => copied_counts_iff s (copyAssign self s false) rfl (chainAt_copyAssign self s)
        rfl hacc⟩

/-- Witness for C19: the table holding 0 and 1 in one chain. -/
theorem copy_keeps_last_node_witness :
    ((List.range sampleTwo.hCapacity).map sampleTwo.elementsAtIndex).sum = sampleTwo.size ∧
      (∀ hne : sampleTwo.chainAt 0 ≠ [],
        (copyConstruct sampleTwo).chainAt 0 = [(sampleTwo.chainAt 0).getLast hne]) ∧
      (((List.range (copyConstruct sampleTwo).hCapacity).map
            (copyConstruct sampleTwo).elementsAtIndex).sum =
          (copyConstruct sampleTwo).size ↔
        ∀ i, i < sampleTwo.hCapacity → (sampleTwo.chainAt i).length ≤ 1) :=
  ⟨by decide,
    fun hne => (((copy_keeps_last_node sampleTwo).1 0 (by decide)).2 hne).1,
    ((copy_keeps_last_node sampleTwo).2.2.2 (by decide)).1⟩

/-- C20: move construction and copy construction install the always-zero hash
function, while move assignment keeps the hash function of the destination.
For a reachable `A` and `B` move-constructed from it, `B.contains e` is true
exactly when `e` is stored in bucket 0 of the table taken from `A`; every
element of `A` whose bucket is not 0 is not contained in `B`, although the
size of `B` is the size of `A`. -/
theorem move_construct_zero_hash [DecidableEq α] (A : HashSet α) (hr : Reachable A) :
    (moveConstruct A).1.hashFunction = impl_.HashSet__undefinedHashFunction ∧
      (copyConstruct A).hashFunction = impl_.HashSet__undefinedHashFunction ∧
      (∀ B : HashSet α, (moveAssign B A).1.hashFunction = B.hashFunction) ∧
      (∀ e, (moveConstruct A).1.contains e = true ↔ e ∈ A.chainAt 0) ∧
      (∀ e, A.contains e = true → A.hashFunction e % A.hCapacity ≠ 0 →
        (moveConstruct A).1.contains e = false) ∧
      (moveConstruct A).1.size = A.size := by
  have hB : ∀ e, (moveConstruct A).1.contains e = true ↔ e ∈ A.chainAt 0 := by
    intro e
    unfold contains
    rw [searchLoop_iff]
    show e ∈ A.chainAt (impl_.HashSet__undefinedHashFunction e % A.hCapacity) ↔ _
    unfold impl_.HashSet__undefinedHashFunction
    rw [Nat.zero_mod]
  refine ⟨rfl, rfl, fun _ => rfl, hB, ?_, rfl⟩
  intro e _ hne
  rw [← Bool.not_eq_true, hB]
  intro hm
  exact hne (hr.inv.home 0 e hm)

/-- Witness for C20: the table holding 0..7; the element 2 sits in bucket 1 and
is not found in the set move-constructed from it, the element 1 sits in bucket
0 and is found. -/
theorem move_construct_zero_hash_witness :
    Reachable sampleEight ∧ sampleEight.contains 2 = true ∧
      (moveConstruct sampleEight).1.contains 2 = false ∧
      ((moveConstruct sampleEight).1.contains 1 = true ↔ 1 ∈ sampleEight.chainAt 0) ∧
      (moveConstruct sampleEight).1.size = sampleEight.size :=
  ⟨addAll_reachable _ (Reachable.create _), by decide,
    (move_construct_zero_hash sampleEight (addAll_reachable _ (Reachable.create _))).2.2.2.2.1 2
      (by decide) (by decide),
    (move_construct_zero_hash sampleEight (addAll_reachable _ (Reachable.create _))).2.2.2.1 1,
    (move_construct_zero_hash sampleEight (addAll_reachable _ (Reachable.create _))).2.2.2.2.2⟩

end HashSet

end SpellChecker
